import Mathlib

/-!
Verification development for the removal-rule core of the renamer repository
(`src/rules/remove.rs`).

Modelling conventions:
* Rust `String`/`&str` values are modelled as `List Char` (the code only ever
  slices at match boundaries of valid UTF-8, so char-level and byte-level
  slicing agree on every operation it performs).
* The name handed to `remove` is a single path component (the tool renames
  base names); the `std::path::Path` stem/extension logic is embedded for such
  component strings: `Path::file_stem` / `Path::extension` split the name at
  the last dot, except that a dot in leading position is a hidden-file marker
  (no split) and the literal name `..` is special-cased by the standard
  library to have no extension.
* `RegexBuilder::new(&regex::escape(text)).case_insensitive(true)` builds a
  matcher for the literal text that compares characters up to simple case
  folding; `caseFold` models that folding.  Whether the build succeeds depends
  only on the pattern text, so the fallible constructor is modelled by an
  explicit oracle `buildOk : List Char → Bool` passed to `remove`; the code's
  `if let Ok(re) = …` failure arm keeps the stem unchanged.
-/

namespace Renamer

/-- `RemovePosition` from `remove.rs`: which occurrence(s) a rule deletes. -/
inductive RemovePosition
  | All
  | First
  | Last
  deriving DecidableEq, Repr

/-- `RemoveRule` from `remove.rs`. -/
structure RemoveRule where
  text : List Char
  remove_position : RemovePosition
  case_sensitive : Bool
  ignore_extension : Bool
  deriving DecidableEq, Repr

/-- Simple case folding used by the case-insensitive matcher. -/
def caseFold (c : Char) : Char := c.toLower

/-- Exact character comparison (case-sensitive matching). -/
def charEqSens (a b : Char) : Bool := a == b

/-- Character comparison up to case folding (case-insensitive matching). -/
def charEqInsens (a b : Char) : Bool := caseFold a == caseFold b

/-- The comparison a rule's `case_sensitive` flag selects. -/
def charEqOf (cs : Bool) : Char → Char → Bool :=
  if cs then charEqSens else charEqInsens

/-- Does `pat` match a prefix of `s`, character by character under `eqc`? -/
def matchAt (eqc : Char → Char → Bool) : List Char → List Char → Bool
  | [], _ => true
  | _ :: _, [] => false
  | p :: ps, c :: cs => eqc p c && matchAt eqc ps cs

/-- `str::replacen(pat, "", 1)` / `Regex::replace` with the empty replacement:
remove the left-most occurrence of `pat`, if any. -/
def removeFirst (eqc : Char → Char → Bool) (pat : List Char) : List Char → List Char
  | [] => []
  | c :: cs =>
    if matchAt eqc pat (c :: cs) then (c :: cs).drop pat.length
    else c :: removeFirst eqc pat cs

/-- `str::rfind(pat)`: index of the right-most occurrence of `pat`. -/
def rfindIdx (eqc : Char → Char → Bool) (pat : List Char) : List Char → Option Nat
  | [] => if matchAt eqc pat [] then some 0 else none
  | c :: cs =>
    match rfindIdx eqc pat cs with
    | some i => some (i + 1)
    | none => if matchAt eqc pat (c :: cs) then some 0 else none

/-- Left-to-right scanner behind `str::replace` / `Regex::replace_all`: after a
match it skips the rest of the matched span (the `Nat` counter) so matches
never overlap.  `removeAll` starts it with counter `0`. -/
def removeAllGo (eqc : Char → Char → Bool) (pat : List Char) : List Char → Nat → List Char
  | [], _ => []
  | _ :: cs, Nat.succ k => removeAllGo eqc pat cs k
  | c :: cs, 0 =>
    if pat ≠ [] ∧ matchAt eqc pat (c :: cs) = true then
      removeAllGo eqc pat cs (pat.length - 1)
    else c :: removeAllGo eqc pat cs 0

/-- `str::replace(pat, "")` / `Regex::replace_all(…, "")`: delete every
non-overlapping occurrence of `pat`, scanning left to right. -/
def removeAll (eqc : Char → Char → Bool) (pat s : List Char) : List Char :=
  removeAllGo eqc pat s 0

/-- Scanner behind `Regex::find_iter`: start indices of the non-overlapping
left-to-right matches of `pat`; `off` is the absolute index of the scan head
and the `Nat` counter skips over the remainder of a just-found match. -/
def findAllGo (eqc : Char → Char → Bool) (pat : List Char) : List Char → Nat → Nat → List Nat
  | [], _, _ => []
  | _ :: cs, off, Nat.succ k => findAllGo eqc pat cs (off + 1) k
  | c :: cs, off, 0 =>
    if pat ≠ [] ∧ matchAt eqc pat (c :: cs) = true then
      off :: findAllGo eqc pat cs (off + 1) (pat.length - 1)
    else findAllGo eqc pat cs (off + 1) 0

/-- Start indices of all non-overlapping left-to-right matches of `pat`. -/
def findAllIdx (eqc : Char → Char → Bool) (pat s : List Char) : List Nat :=
  findAllGo eqc pat s 0 0

/-- `Vec::last()` / `slice::last()`. -/
def lastElem? : List Nat → Option Nat
  | [] => none
  | [a] => some a
  | _ :: b :: t => lastElem? (b :: t)

/-- Index of the last occurrence of `c` in `s` (`rposition` over the bytes). -/
def lastIdxOf (c : Char) : List Char → Option Nat
  | [] => none
  | a :: as_ =>
    match lastIdxOf c as_ with
    | some i => some (i + 1)
    | none => if a = c then some 0 else none

/-- The `Path::file_stem` / `Path::extension` block of `remove` on a single
path component: `(name_to_process, extension_to_append)`.  A last dot at
position ≥ 1 splits the name (even when the extension is empty, as for
`"a."`); a leading-only dot is a hidden-file marker and the component `".."`
is special-cased, both yielding no split. -/
def splitName (s : List Char) : List Char × List Char :=
  if s = ['.', '.'] then (s, [])
  else
    match lastIdxOf '.' s with
    | none => (s, [])
    | some 0 => (s, [])
    | some (Nat.succ i) => (s.take (i + 1), '.' :: s.drop (i + 2))

/-- The `match rule.remove_position` block of `remove`, acting on the stem.
`buildOk` tells whether the case-insensitive regex for `rule.text` builds;
when it does not, every arm keeps the stem unchanged. -/
def applyMatcher (buildOk : List Char → Bool) (rule : RemoveRule) (stem : List Char) : List Char :=
  match rule.remove_position with
  | RemovePosition.First =>
    if rule.case_sensitive then removeFirst charEqSens rule.text stem
    else if buildOk rule.text then removeFirst charEqInsens rule.text stem
    else stem
  | RemovePosition.Last =>
    if rule.case_sensitive then
      match rfindIdx charEqSens rule.text stem with
      | some i => stem.take i ++ stem.drop (i + rule.text.length)
      | none => stem
    else if buildOk rule.text then
      match lastElem? (findAllIdx charEqInsens rule.text stem) with
      | some i => stem.take i ++ stem.drop (i + rule.text.length)
      | none => stem
    else stem
  | RemovePosition.All =>
    if rule.case_sensitive then removeAll charEqSens rule.text stem
    else if buildOk rule.text then removeAll charEqInsens rule.text stem
    else stem

/-- `remove` from `remove.rs`: empty target short-circuits; otherwise the name
is split according to `ignore_extension`, an empty stem returns the suffix
directly, and otherwise the matcher's output is recombined with the suffix. -/
def remove (buildOk : List Char → Bool) (old_text : List Char) (rule : RemoveRule) : List Char :=
  if rule.text = [] then old_text
  else
    let split := if rule.ignore_extension then splitName old_text else (old_text, [])
    if split.1 = [] then split.2
    else applyMatcher buildOk rule split.1 ++ split.2

/-- `removes` from `remove.rs`: left fold of `remove` over the rule list. -/
def removes (buildOk : List Char → Bool) (old_text : List Char) (rules : List RemoveRule) : List Char :=
  rules.foldl (fun current_text rule => remove buildOk current_text rule) old_text

/-- The stem `remove` operates on (first component of its internal split). -/
def stemOf (s : List Char) (r : RemoveRule) : List Char :=
  (if r.ignore_extension then splitName s else (s, [])).1

/-- The protected suffix `remove` re-appends (second component of the split). -/
def suffixOf (s : List Char) (r : RemoveRule) : List Char :=
  (if r.ignore_extension then splitName s else (s, [])).2

/-! ### Basic lemmas about the splitter and the `remove` control flow -/

theorem matchAt_nil_right (eqc : Char → Char → Bool) (pat : List Char) (hp : pat ≠ []) :
    matchAt eqc pat [] = false := by
  cases pat with
  | nil => exact absurd rfl hp
  | cons p ps => rfl

theorem matchAt_length (eqc : Char → Char → Bool) :
    ∀ (pat s : List Char), matchAt eqc pat s = true → pat.length ≤ s.length := by
  intro pat
  induction pat with
  | nil => intro s _; exact Nat.zero_le _
  | cons p ps ih =>
    intro s h
    cases s with
    | nil => simp [matchAt] at h
    | cons c cs =>
      simp only [matchAt, Bool.and_eq_true] at h
      simpa [Nat.succ_le_succ_iff] using ih cs h.2

theorem lastIdxOf_drop (c : Char) :
    ∀ (s : List Char) (i : Nat), lastIdxOf c s = some i → s.drop i = c :: s.drop (i + 1) := by
  intro s
  induction s with
  | nil => intro i h; simp [lastIdxOf] at h
  | cons a as_ ih =>
    intro i h
    simp only [lastIdxOf] at h
    cases hm : lastIdxOf c as_ with
    | some j =>
      rw [hm] at h
      cases h
      simpa using ih j hm
    | none =>
      rw [hm] at h
      by_cases hac : a = c
      · rw [if_pos hac] at h
        cases h
        simp [hac]
      · rw [if_neg hac] at h
        cases h

theorem splitName_recomb (s : List Char) : (splitName s).1 ++ (splitName s).2 = s := by
  unfold splitName
  by_cases hdd : s = ['.', '.']
  · simp [hdd]
  · rw [if_neg hdd]
    cases h : lastIdxOf '.' s with
    | none => simp
    | some n =>
      cases n with
      | zero => simp
      | succ i =>
        simp only
        have hd := lastIdxOf_drop '.' s (i + 1) h
        calc s.take (i + 1) ++ '.' :: s.drop (i + 2)
            = s.take (i + 1) ++ s.drop (i + 1) := by rw [hd]
          _ = s := List.take_append_drop _ s

theorem splitName_fst_nil (s : List Char) (h : (splitName s).1 = []) : s = [] := by
  unfold splitName at h
  by_cases hdd : s = ['.', '.']
  · rw [if_pos hdd] at h
    simp at h
    simp [hdd] at h
  · rw [if_neg hdd] at h
    cases hm : lastIdxOf '.' s with
    | none => rw [hm] at h; exact h
    | some n =>
      cases n with
      | zero => rw [hm] at h; exact h
      | succ i =>
        rw [hm] at h
        simp only at h
        rcases List.take_eq_nil_iff.mp h with h0 | h0
        · exact absurd h0 (Nat.succ_ne_zero i)
        · exact h0

theorem stemOf_nil (s : List Char) (r : RemoveRule) (h : stemOf s r = []) : s = [] := by
  unfold stemOf at h
  cases hig : r.ignore_extension with
  | false => rw [hig] at h; simpa using h
  | true =>
    rw [hig] at h
    exact splitName_fst_nil s (by simpa using h)

theorem suffixOf_nil (r : RemoveRule) : suffixOf [] r = [] := by
  unfold suffixOf
  cases hig : r.ignore_extension <;> simp [splitName, lastIdxOf]

theorem stem_suffix_recomb (s : List Char) (r : RemoveRule) :
    stemOf s r ++ suffixOf s r = s := by
  unfold stemOf suffixOf
  cases hig : r.ignore_extension with
  | false => simp
  | true => simpa using splitName_recomb s

theorem lastIdxOf_none_of_not_mem (c : Char) : ∀ s : List Char, c ∉ s → lastIdxOf c s = none := by
  intro s
  induction s with
  | nil => intro _; rfl
  | cons a as_ ih =>
    intro h
    have h1 : c ∉ as_ := fun hm => h (List.mem_cons_of_mem a hm)
    have h2 : ¬ a = c := by
      intro he
      exact h (by simp [he])
    simp [lastIdxOf, ih h1, h2]

theorem lastIdxOf_append_cons (c : Char) (a b' : List Char) (hb : c ∉ b') :
    lastIdxOf c (a ++ c :: b') = some a.length := by
  induction a with
  | nil => simp [lastIdxOf, lastIdxOf_none_of_not_mem c b' hb]
  | cons x xs ih => simp [lastIdxOf, ih]

theorem drop_append_cons (a : List Char) (c : Char) (b' : List Char) :
    (a ++ c :: b').drop (a.length + 1) = b' := by
  induction a with
  | nil => rfl
  | cons x xs ih => simp [ih]

theorem splitName_no_dot (s : List Char) (h : '.' ∉ s) : splitName s = (s, []) := by
  have hne : s ≠ ['.', '.'] := by
    intro he
    exact h (by simp [he])
  unfold splitName
  rw [if_neg hne, lastIdxOf_none_of_not_mem '.' s h]

theorem splitName_dotfile (t : List Char) (h : '.' ∉ t) : splitName ('.' :: t) = ('.' :: t, []) := by
  have hne : ('.' :: t) ≠ ['.', '.'] := by
    intro he
    apply h
    have ht : t = ['.'] := by simp at he; exact he
    simp [ht]
  unfold splitName
  rw [if_neg hne]
  simp [lastIdxOf, lastIdxOf_none_of_not_mem '.' t h]

theorem splitName_last_dot (a b' : List Char) (ha : a ≠ []) (hb : '.' ∉ b')
    (hne : a ++ '.' :: b' ≠ ['.', '.']) : splitName (a ++ '.' :: b') = (a, '.' :: b') := by
  unfold splitName
  rw [if_neg hne]
  cases a with
  | nil => exact absurd rfl ha
  | cons x xs =>
    have hfind : lastIdxOf '.' ((x :: xs) ++ '.' :: b') = some (x :: xs).length :=
      lastIdxOf_append_cons '.' (x :: xs) b' hb
    rw [hfind]
    have h1 : ((x :: xs) ++ '.' :: b').take (xs.length + 1) = x :: xs :=
      List.take_left (x :: xs) ('.' :: b')
    have h2 : ((x :: xs) ++ '.' :: b').drop (xs.length + 2) = b' :=
      drop_append_cons (x :: xs) '.' b'
    show (((x :: xs) ++ '.' :: b').take (xs.length + 1),
        '.' :: ((x :: xs) ++ '.' :: b').drop (xs.length + 2)) = (x :: xs, '.' :: b')
    rw [h1, h2]

/-! ### Lemmas about the global-removal scanner -/

theorem removeAllGo_skip (eqc : Char → Char → Bool) (pat : List Char) :
    ∀ (s : List Char) (k : Nat), removeAllGo eqc pat s k = removeAllGo eqc pat (s.drop k) 0 := by
  intro s
  induction s with
  | nil => intro k; simp [removeAllGo]
  | cons c cs ih =>
    intro k
    cases k with
    | zero => rfl
    | succ k => simpa [removeAllGo] using ih k

theorem removeAll_match (eqc : Char → Char → Bool) (pat : List Char) (c : Char) (cs : List Char)
    (hp : pat ≠ []) (hm : matchAt eqc pat (c :: cs) = true) :
    removeAll eqc pat (c :: cs) = removeAll eqc pat ((c :: cs).drop pat.length) := by
  cases pat with
  | nil => exact absurd rfl hp
  | cons p ps =>
    show removeAllGo eqc (p :: ps) (c :: cs) 0 = _
    rw [removeAllGo]
    rw [if_pos ⟨hp, hm⟩]
    simpa [removeAll] using removeAllGo_skip eqc (p :: ps) cs ps.length

theorem removeAll_nomatch_cons (eqc : Char → Char → Bool) (pat : List Char) (c : Char)
    (cs : List Char) (h : ¬(pat ≠ [] ∧ matchAt eqc pat (c :: cs) = true)) :
    removeAll eqc pat (c :: cs) = c :: removeAll eqc pat cs := by
  show removeAllGo eqc pat (c :: cs) 0 = _
  rw [removeAllGo, if_neg h]
  rfl

theorem removeAll_len_aux (eqc : Char → Char → Bool) (pat : List Char) :
    ∀ (n : Nat) (s : List Char), s.length ≤ n → (removeAll eqc pat s).length ≤ s.length := by
  intro n
  induction n with
  | zero =>
    intro s hs
    have hnil : s = [] := List.eq_nil_of_length_eq_zero (Nat.le_zero.mp hs)
    simp [hnil, removeAll, removeAllGo]
  | succ n ih =>
    intro s hs
    cases s with
    | nil => simp [removeAll, removeAllGo]
    | cons c cs =>
      by_cases h : pat ≠ [] ∧ matchAt eqc pat (c :: cs) = true
      · rw [removeAll_match eqc pat c cs h.1 h.2]
        have hp : 0 < pat.length := List.length_pos.mpr h.1
        have hlen : ((c :: cs).drop pat.length).length ≤ n := by
          simp only [List.length_drop, List.length_cons]
          simp only [List.length_cons] at hs
          omega
        calc (removeAll eqc pat ((c :: cs).drop pat.length)).length
            ≤ ((c :: cs).drop pat.length).length := ih _ hlen
          _ ≤ (c :: cs).length := by
              simp only [List.length_drop]
              exact Nat.sub_le _ _
      · rw [removeAll_nomatch_cons eqc pat c cs h]
        have := ih cs (by simp only [List.length_cons] at hs; omega)
        simpa using this

theorem removeAll_len (eqc : Char → Char → Bool) (pat s : List Char) :
    (removeAll eqc pat s).length ≤ s.length :=
  removeAll_len_aux eqc pat s.length s (Nat.le_refl _)

theorem removeAll_nomatch (eqc : Char → Char → Bool) (pat : List Char) :
    ∀ s : List Char, (∀ i, matchAt eqc pat (s.drop i) = false) → removeAll eqc pat s = s := by
  intro s
  induction s with
  | nil => intro _; rfl
  | cons c cs ih =>
    intro h
    have h0 : matchAt eqc pat (c :: cs) = false := h 0
    rw [removeAll_nomatch_cons eqc pat c cs (by simp [h0])]
    rw [ih (fun i => h (i + 1))]

theorem removeAll_singleton_filter (eqc : Char → Char → Bool) (c : Char) :
    ∀ s : List Char, removeAll eqc [c] s = s.filter (fun a => !(eqc c a)) := by
  intro s
  induction s with
  | nil => rfl
  | cons a as_ ih =>
    have hm : matchAt eqc [c] (a :: as_) = eqc c a := by simp [matchAt]
    by_cases hca : eqc c a = true
    · have := removeAll_match eqc [c] a as_ (by simp) (by rw [hm]; exact hca)
      simp only [List.length_cons, List.length_nil, List.drop_succ_cons, List.drop_zero] at this
      rw [this, ih]
      simp [hca]
    · have hns : ¬([c] ≠ [] ∧ matchAt eqc [c] (a :: as_) = true) := by
        intro hand
        rw [hm] at hand
        exact hca hand.2
      rw [removeAll_nomatch_cons eqc [c] a as_ hns, ih]
      simp [Bool.not_eq_true] at hca
      simp [hca]

theorem filter_self_idem (p : Char → Bool) : ∀ l : List Char, (l.filter p).filter p = l.filter p := by
  intro l
  induction l with
  | nil => rfl
  | cons a as_ ih =>
    by_cases hp : p a = true
    · simp [List.filter_cons, hp, ih]
    · simp only [Bool.not_eq_true] at hp
      simp [List.filter_cons, hp, ih]

/-! ### Lemmas about first-occurrence and last-occurrence matching -/

theorem bool_eq_false {x : Bool} (h : ¬ x = true) : x = false := by
  cases x with
  | false => rfl
  | true => exact absurd rfl h

theorem removeFirst_len (eqc : Char → Char → Bool) (pat : List Char) :
    ∀ s : List Char, (removeFirst eqc pat s).length ≤ s.length := by
  intro s
  induction s with
  | nil => simp [removeFirst]
  | cons c cs ih =>
    by_cases hm : matchAt eqc pat (c :: cs) = true
    · rw [removeFirst, if_pos hm]
      simp only [List.length_drop]
      exact Nat.sub_le _ _
    · rw [removeFirst, if_neg hm]
      simp only [List.length_cons]
      omega

theorem removeFirst_nomatch (eqc : Char → Char → Bool) (pat : List Char) :
    ∀ s : List Char, (∀ i, matchAt eqc pat (s.drop i) = false) → removeFirst eqc pat s = s := by
  intro s
  induction s with
  | nil => intro _; rfl
  | cons c cs ih =>
    intro h
    have h0 : matchAt eqc pat (c :: cs) = false := h 0
    rw [removeFirst, if_neg (by simp [h0])]
    rw [ih (fun i => by simpa using h (i + 1))]

theorem rfindIdx_none (eqc : Char → Char → Bool) (pat : List Char) :
    ∀ s : List Char, rfindIdx eqc pat s = none → ∀ i, matchAt eqc pat (s.drop i) = false := by
  intro s
  induction s with
  | nil =>
    intro h i
    simp only [rfindIdx] at h
    by_cases hb : matchAt eqc pat [] = true
    · rw [if_pos hb] at h; cases h
    · simpa using bool_eq_false hb
  | cons c cs ih =>
    intro h i
    simp only [rfindIdx] at h
    cases hm : rfindIdx eqc pat cs with
    | some j => rw [hm] at h; cases h
    | none =>
      rw [hm] at h
      have hcc : matchAt eqc pat (c :: cs) = false := by
        by_cases hb : matchAt eqc pat (c :: cs) = true
        · rw [if_pos hb] at h; cases h
        · exact bool_eq_false hb
      cases i with
      | zero => exact hcc
      | succ k => simpa using ih hm k

theorem rfindIdx_some_match (eqc : Char → Char → Bool) (pat : List Char) :
    ∀ (s : List Char) (i : Nat), rfindIdx eqc pat s = some i →
      matchAt eqc pat (s.drop i) = true := by
  intro s
  induction s with
  | nil =>
    intro i h
    simp only [rfindIdx] at h
    by_cases hb : matchAt eqc pat [] = true
    · rw [if_pos hb] at h
      cases h
      simpa using hb
    · rw [if_neg hb] at h; cases h
  | cons c cs ih =>
    intro i h
    simp only [rfindIdx] at h
    cases hm : rfindIdx eqc pat cs with
    | some j =>
      rw [hm] at h
      cases h
      simpa using ih j hm
    | none =>
      rw [hm] at h
      by_cases hb : matchAt eqc pat (c :: cs) = true
      · rw [if_pos hb] at h
        cases h
        simpa using hb
      · rw [if_neg hb] at h; cases h

theorem rfindIdx_some_max (eqc : Char → Char → Bool) (pat : List Char) (hp : pat ≠ []) :
    ∀ (s : List Char) (i : Nat), rfindIdx eqc pat s = some i →
      ∀ j, matchAt eqc pat (s.drop j) = true → j ≤ i := by
  intro s
  induction s with
  | nil =>
    intro i _ j hj
    rw [List.drop_nil, matchAt_nil_right eqc pat hp] at hj
    cases hj
  | cons c cs ih =>
    intro i h j hj
    simp only [rfindIdx] at h
    cases hm : rfindIdx eqc pat cs with
    | some j' =>
      rw [hm] at h
      cases h
      cases j with
      | zero => exact Nat.zero_le _
      | succ k =>
        have hk : k ≤ j' := ih j' hm k (by simpa using hj)
        omega
    | none =>
      rw [hm] at h
      by_cases hb : matchAt eqc pat (c :: cs) = true
      · rw [if_pos hb] at h
        cases h
        cases j with
        | zero => exact Nat.le_refl 0
        | succ k =>
          have hf := rfindIdx_none eqc pat cs hm k
          rw [List.drop_succ_cons, hf] at hj
          cases hj
      · rw [if_neg hb] at h; cases h

theorem splice_len (s : List Char) (i k : Nat) (hik : i ≤ k) :
    (s.take i ++ s.drop k).length ≤ s.length := by
  simp only [List.length_append, List.length_take, List.length_drop]
  omega

/-! ### Lemmas about the non-overlapping match scanner -/

theorem findAllGo_skip (eqc : Char → Char → Bool) (pat : List Char) :
    ∀ (s : List Char) (off k : Nat),
      findAllGo eqc pat s off k = findAllGo eqc pat (s.drop k) (off + k) 0 := by
  intro s
  induction s with
  | nil => intro off k; simp [findAllGo]
  | cons c cs ih =>
    intro off k
    cases k with
    | zero => rfl
    | succ k =>
      have h1 : findAllGo eqc pat (c :: cs) off (k + 1) = findAllGo eqc pat cs (off + 1) k := rfl
      rw [h1, ih (off + 1) k, List.drop_succ_cons]
      have harith : off + 1 + k = off + (k + 1) := by omega
      rw [harith]

theorem findAllGo_match (eqc : Char → Char → Bool) (pat : List Char) (c : Char) (cs : List Char)
    (off : Nat) (hp : pat ≠ []) (hm : matchAt eqc pat (c :: cs) = true) :
    findAllGo eqc pat (c :: cs) off 0 =
      off :: findAllGo eqc pat ((c :: cs).drop pat.length) (off + pat.length) 0 := by
  cases pat with
  | nil => exact absurd rfl hp
  | cons p ps =>
    rw [findAllGo, if_pos ⟨hp, hm⟩]
    simp only [List.length_cons, Nat.add_sub_cancel, List.drop_succ_cons]
    rw [findAllGo_skip eqc (p :: ps) cs (off + 1) ps.length]
    have harith : off + 1 + ps.length = off + (ps.length + 1) := by omega
    rw [harith]

theorem findAllGo_nomatch_cons (eqc : Char → Char → Bool) (pat : List Char) (c : Char)
    (cs : List Char) (off : Nat) (h : ¬(pat ≠ [] ∧ matchAt eqc pat (c :: cs) = true)) :
    findAllGo eqc pat (c :: cs) off 0 = findAllGo eqc pat cs (off + 1) 0 := by
  rw [findAllGo, if_neg h]

theorem findAllGo_nomatch (eqc : Char → Char → Bool) (pat : List Char) :
    ∀ s : List Char, (∀ i, matchAt eqc pat (s.drop i) = false) →
      ∀ off, findAllGo eqc pat s off 0 = [] := by
  intro s
  induction s with
  | nil => intro _ off; rfl
  | cons c cs ih =>
    intro h off
    have h0 : matchAt eqc pat (c :: cs) = false := h 0
    rw [findAllGo_nomatch_cons eqc pat c cs off (by simp [h0])]
    exact ih (fun i => by simpa using h (i + 1)) (off + 1)

theorem findAllGo_sound_aux (eqc : Char → Char → Bool) (pat : List Char) :
    ∀ (n : Nat) (s : List Char), s.length ≤ n → ∀ (off j : Nat),
      j ∈ findAllGo eqc pat s off 0 →
      ∃ k, j = off + k ∧ matchAt eqc pat (s.drop k) = true := by
  intro n
  induction n with
  | zero =>
    intro s hs off j hj
    have hnil : s = [] := List.eq_nil_of_length_eq_zero (Nat.le_zero.mp hs)
    subst hnil
    simp [findAllGo] at hj
  | succ n ih =>
    intro s hs off j hj
    cases s with
    | nil => simp [findAllGo] at hj
    | cons c cs =>
      by_cases hcond : pat ≠ [] ∧ matchAt eqc pat (c :: cs) = true
      · rw [findAllGo_match eqc pat c cs off hcond.1 hcond.2] at hj
        rcases List.mem_cons.mp hj with he | htl
        · exact ⟨0, by simpa using he, by simpa using hcond.2⟩
        · have hlen : ((c :: cs).drop pat.length).length ≤ n := by
            have hp0 : 0 < pat.length := List.length_pos.mpr hcond.1
            simp only [List.length_drop, List.length_cons]
            simp only [List.length_cons] at hs
            omega
          obtain ⟨k', hk1, hk2⟩ := ih ((c :: cs).drop pat.length) hlen (off + pat.length) j htl
          refine ⟨pat.length + k', by omega, ?_⟩
          rw [List.drop_drop] at hk2
          exact hk2
      · rw [findAllGo_nomatch_cons eqc pat c cs off hcond] at hj
        obtain ⟨k', hk1, hk2⟩ :=
          ih cs (by simp only [List.length_cons] at hs; omega) (off + 1) j hj
        exact ⟨k' + 1, by omega, by simpa using hk2⟩

theorem findAllGo_lb (eqc : Char → Char → Bool) (pat : List Char) (s : List Char)
    (off j : Nat) (hj : j ∈ findAllGo eqc pat s off 0) : off ≤ j := by
  obtain ⟨k, hk, _⟩ := findAllGo_sound_aux eqc pat s.length s (Nat.le_refl _) off j hj
  omega

theorem findAllGo_nonempty_aux (eqc : Char → Char → Bool) (pat : List Char) (hp : pat ≠ []) :
    ∀ (n : Nat) (s : List Char), s.length ≤ n → ∀ (i off : Nat),
      matchAt eqc pat (s.drop i) = true → findAllGo eqc pat s off 0 ≠ [] := by
  intro n
  induction n with
  | zero =>
    intro s hs i off hm
    have hnil : s = [] := List.eq_nil_of_length_eq_zero (Nat.le_zero.mp hs)
    subst hnil
    rw [List.drop_nil, matchAt_nil_right eqc pat hp] at hm
    cases hm
  | succ n ih =>
    intro s hs i off hm
    cases s with
    | nil =>
      rw [List.drop_nil, matchAt_nil_right eqc pat hp] at hm
      cases hm
    | cons c cs =>
      by_cases hcond : pat ≠ [] ∧ matchAt eqc pat (c :: cs) = true
      · rw [findAllGo_match eqc pat c cs off hcond.1 hcond.2]
        simp
      · cases i with
        | zero => exact absurd ⟨hp, by simpa using hm⟩ hcond
        | succ k =>
          rw [findAllGo_nomatch_cons eqc pat c cs off hcond]
          exact ih cs (by simp only [List.length_cons] at hs; omega) k (off + 1)
            (by simpa using hm)

theorem lastElem?_isSome : ∀ l : List Nat, l ≠ [] → ∃ m, lastElem? l = some m
  | [], h => absurd rfl h
  | [a], _ => ⟨a, rfl⟩
  | _ :: b :: t, _ => lastElem?_isSome (b :: t) (by simp)

theorem lastElem?_mem : ∀ (l : List Nat) (m : Nat), lastElem? l = some m → m ∈ l
  | [], _, h => by simp [lastElem?] at h
  | [a], m, h => by
    have ha : a = m := by simpa [lastElem?] using h
    simp [ha]
  | _ :: b :: t, m, h => by
    have hmem := lastElem?_mem (b :: t) m h
    exact List.mem_cons_of_mem _ hmem

theorem lastElem?_cons_cons (a b : Nat) (t : List Nat) :
    lastElem? (a :: b :: t) = lastElem? (b :: t) := rfl

theorem findAllGo_max_aux (eqc : Char → Char → Bool) (pat : List Char) :
    ∀ (n : Nat) (s : List Char), s.length ≤ n → ∀ (off m : Nat),
      lastElem? (findAllGo eqc pat s off 0) = some m →
      ∀ j ∈ findAllGo eqc pat s off 0, j ≤ m := by
  intro n
  induction n with
  | zero =>
    intro s hs off m _ j hj
    have hnil : s = [] := List.eq_nil_of_length_eq_zero (Nat.le_zero.mp hs)
    subst hnil
    simp [findAllGo] at hj
  | succ n ih =>
    intro s hs off m hm j hj
    cases s with
    | nil => simp [findAllGo] at hj
    | cons c cs =>
      by_cases hcond : pat ≠ [] ∧ matchAt eqc pat (c :: cs) = true
      · rw [findAllGo_match eqc pat c cs off hcond.1 hcond.2] at hm hj
        have hlen : ((c :: cs).drop pat.length).length ≤ n := by
          have hp0 : 0 < pat.length := List.length_pos.mpr hcond.1
          simp only [List.length_drop, List.length_cons]
          simp only [List.length_cons] at hs
          omega
        cases hL : findAllGo eqc pat ((c :: cs).drop pat.length) (off + pat.length) 0 with
        | nil =>
          rw [hL] at hm hj
          have hmo : off = m := by simpa [lastElem?] using hm
          have hjo : j = off := by simpa using hj
          omega
        | cons x xs =>
          rw [hL] at hm hj
          rw [lastElem?_cons_cons] at hm
          rcases List.mem_cons.mp hj with he | htl
          · have hmem : m ∈ x :: xs := lastElem?_mem (x :: xs) m hm
            have hlb : off + pat.length ≤ m :=
              findAllGo_lb eqc pat ((c :: cs).drop pat.length) (off + pat.length) m
                (by rw [hL]; exact hmem)
            omega
          · exact ih ((c :: cs).drop pat.length) hlen (off + pat.length) m
              (by rw [hL]; exact hm) j (by rw [hL]; exact htl)
      · rw [findAllGo_nomatch_cons eqc pat c cs off hcond] at hm hj
        exact ih cs (by simp only [List.length_cons] at hs; omega) (off + 1) m hm j hj

theorem remove_of_empty_text (b : List Char → Bool) (s : List Char) (r : RemoveRule)
    (h : r.text = []) : remove b s r = s := by
  simp [remove, h]

theorem remove_of_empty_stem (b : List Char → Bool) (s : List Char) (r : RemoveRule)
    (ht : r.text ≠ []) (hs : stemOf s r = []) : remove b s r = suffixOf s r := by
  unfold remove
  rw [if_neg ht]
  unfold stemOf at hs
  simp only [suffixOf]
  simp [hs]

theorem remove_decomp (b : List Char → Bool) (s : List Char) (r : RemoveRule)
    (ht : r.text ≠ []) (hs : stemOf s r ≠ []) :
    remove b s r = applyMatcher b r (stemOf s r) ++ suffixOf s r := by
  unfold remove
  rw [if_neg ht]
  unfold stemOf at hs ⊢
  simp only [suffixOf]
  simp [hs]

theorem applyMatcher_nomatch (b : List Char → Bool) (r : RemoveRule) (stem : List Char)
    (h : ∀ i, matchAt (charEqOf r.case_sensitive) r.text (stem.drop i) = false) :
    applyMatcher b r stem = stem := by
  cases hc : r.case_sensitive with
  | true =>
    have h' : ∀ i, matchAt charEqSens r.text (stem.drop i) = false := by
      intro i
      have hi := h i
      rw [hc] at hi
      simpa [charEqOf] using hi
    cases hpos : r.remove_position with
    | First =>
      simp only [applyMatcher, hpos, hc, if_true]
      exact removeFirst_nomatch charEqSens r.text stem h'
    | Last =>
      cases hr : rfindIdx charEqSens r.text stem with
      | some i =>
        have hmi := rfindIdx_some_match charEqSens r.text stem i hr
        rw [h' i] at hmi
        cases hmi
      | none => simp [applyMatcher, hpos, hc, hr]
    | All =>
      simp only [applyMatcher, hpos, hc, if_true]
      exact removeAll_nomatch charEqSens r.text stem h'
  | false =>
    have h' : ∀ i, matchAt charEqInsens r.text (stem.drop i) = false := by
      intro i
      have hi := h i
      rw [hc] at hi
      simpa [charEqOf] using hi
    by_cases hb : b r.text = true
    · cases hpos : r.remove_position with
      | First =>
        simp only [applyMatcher, hpos, hc, hb]
        simp only [Bool.false_eq_true, if_false, if_true]
        exact removeFirst_nomatch charEqInsens r.text stem h'
      | Last =>
        have hfa : findAllGo charEqInsens r.text stem 0 0 = [] :=
          findAllGo_nomatch charEqInsens r.text stem h' 0
        simp [applyMatcher, hpos, hc, hb, findAllIdx, hfa, lastElem?]
      | All =>
        simp only [applyMatcher, hpos, hc, hb]
        simp only [Bool.false_eq_true, if_false, if_true]
        exact removeAll_nomatch charEqInsens r.text stem h'
    · have hb' : b r.text = false := bool_eq_false hb
      cases hpos : r.remove_position with
      | First => simp [applyMatcher, hpos, hc, hb']
      | Last => simp [applyMatcher, hpos, hc, hb']
      | All => simp [applyMatcher, hpos, hc, hb']

theorem applyMatcher_len (b : List Char → Bool) (r : RemoveRule) (stem : List Char) :
    (applyMatcher b r stem).length ≤ stem.length := by
  cases hpos : r.remove_position with
  | First =>
    by_cases hc : r.case_sensitive = true
    · simp only [applyMatcher, hpos, hc, if_true]
      exact removeFirst_len charEqSens r.text stem
    · have hc' : r.case_sensitive = false := bool_eq_false hc
      by_cases hb : b r.text = true
      · simp only [applyMatcher, hpos, hc', hb, Bool.false_eq_true, if_false, if_true]
        exact removeFirst_len charEqInsens r.text stem
      · simp [applyMatcher, hpos, hc', bool_eq_false hb]
  | Last =>
    by_cases hc : r.case_sensitive = true
    · simp only [applyMatcher, hpos, hc, if_true]
      cases hr : rfindIdx charEqSens r.text stem with
      | some i =>
        simp only
        exact splice_len stem i (i + r.text.length) (Nat.le_add_right _ _)
      | none => simp
    · have hc' : r.case_sensitive = false := bool_eq_false hc
      by_cases hb : b r.text = true
      · simp only [applyMatcher, hpos, hc', hb, Bool.false_eq_true, if_false, if_true]
        cases hr : lastElem? (findAllIdx charEqInsens r.text stem) with
        | some i =>
          simp only
          exact splice_len stem i (i + r.text.length) (Nat.le_add_right _ _)
        | none => simp
      · simp [applyMatcher, hpos, hc', bool_eq_false hb]
  | All =>
    by_cases hc : r.case_sensitive = true
    · simp only [applyMatcher, hpos, hc, if_true]
      exact removeAll_len charEqSens r.text stem
    · have hc' : r.case_sensitive = false := bool_eq_false hc
      by_cases hb : b r.text = true
      · simp only [applyMatcher, hpos, hc', hb, Bool.false_eq_true, if_false, if_true]
        exact removeAll_len charEqInsens r.text stem
      · simp [applyMatcher, hpos, hc', bool_eq_false hb]

theorem applyMatcher_build_failure (b : List Char → Bool) (r : RemoveRule) (stem : List Char)
    (hc : r.case_sensitive = false) (hb : b r.text = false) :
    applyMatcher b r stem = stem := by
  unfold applyMatcher
  cases r.remove_position <;> simp [hc, hb]

theorem sanity_dotfile :
    remove (fun _ => true) ('.' :: ['b','a','s','h','r','c'])
      ⟨['b','a','s','h'], RemovePosition.All, true, true⟩ = ['.', 'r', 'c'] := by
  decide

theorem sanity_a_txt :
    remove (fun _ => true) ['a','.','t','x','t']
      ⟨['a'], RemovePosition.All, true, true⟩ = ['.','t','x','t'] := by
  decide

theorem sanity_last :
    remove (fun _ => true) ['a','b','c','_','1','2','3','_','a','b','c','.','t','x','t']
      ⟨['a','b','c'], RemovePosition.Last, true, true⟩
      = ['a','b','c','_','1','2','3','_','.','t','x','t'] := by
  decide

/-! ### Claim theorems -/

theorem remove_all_sens_noext (b : List Char → Bool) (x : List Char) (r : RemoveRule)
    (ht : r.text ≠ []) (hp : r.remove_position = RemovePosition.All)
    (hc : r.case_sensitive = true) (hi : r.ignore_extension = false) :
    remove b x r = removeAll charEqSens r.text x := by
  by_cases hx : x = []
  · subst hx
    rw [remove_of_empty_stem b [] r ht (by simp [stemOf, hi]), suffixOf_nil]
    rfl
  · have hs : stemOf x r ≠ [] := by
      simp only [stemOf, hi, if_false]
      exact hx
    rw [remove_decomp b x r ht hs]
    have hstem : stemOf x r = x := by simp [stemOf, hi]
    have hsuf : suffixOf x r = [] := by simp [suffixOf, hi]
    rw [hstem, hsuf, List.append_nil]
    simp [applyMatcher, hp, hc]

/-- C4 counterexample: with `position = All` and `case_sensitive = true` the
rule is not idempotent in general.  Deleting `"ab"` from `"aabb"` leaves
`"ab"` — the two halves of a fresh occurrence are juxtaposed — so a second
application deletes again; and with `ignore_extension = true`, deleting `"a"`
from `"a.ba"` leaves `".ba"`, which the second application re-splits as a
dotfile, exposing the previously protected extension to further removal. -/
theorem C4_idempotence_counterexample :
    (remove (fun _ => true)
        (remove (fun _ => true) ['a', 'a', 'b', 'b'] ⟨['a', 'b'], RemovePosition.All, true, false⟩)
        ⟨['a', 'b'], RemovePosition.All, true, false⟩ ≠
      remove (fun _ => true) ['a', 'a', 'b', 'b'] ⟨['a', 'b'], RemovePosition.All, true, false⟩) ∧
    (remove (fun _ => true)
        (remove (fun _ => true) ['a', '.', 'b', 'a'] ⟨['a'], RemovePosition.All, true, true⟩)
        ⟨['a'], RemovePosition.All, true, true⟩ ≠
      remove (fun _ => true) ['a', '.', 'b', 'a'] ⟨['a'], RemovePosition.All, true, true⟩) := by
  refine ⟨by decide, by decide⟩

/-- C4 (amended): for rules with `position = All` and `case_sensitive = true`,
applying the rule twice is idempotent when the target text is a single
character and `ignore_extension = false`: then the first application deletes
every occurrence of that character and the second finds nothing to delete.
(For longer targets a removal can juxtapose a fresh occurrence, and with
`ignore_extension = true` the second application re-splits the name, so both
generalisations fail — see the counterexample.) -/
theorem C4_idempotent_amended (b : List Char → Bool) (x : List Char) (c : Char) (r : RemoveRule)
    (ht : r.text = [c]) (hp : r.remove_position = RemovePosition.All)
    (hc : r.case_sensitive = true) (hi : r.ignore_extension = false) :
    remove b (remove b x r) r = remove b x r := by
  have htne : r.text ≠ [] := by rw [ht]; simp
  have h1 : remove b x r = removeAll charEqSens r.text x :=
    remove_all_sens_noext b x r htne hp hc hi
  have h2 : remove b (remove b x r) r = removeAll charEqSens r.text (remove b x r) :=
    remove_all_sens_noext b (remove b x r) r htne hp hc hi
  rw [h2, h1, ht, removeAll_singleton_filter, removeAll_singleton_filter, filter_self_idem]

theorem C4_idempotent_amended_witness :
    remove (fun _ => true)
        (remove (fun _ => true) ['a', 'b', 'a'] ⟨['a'], RemovePosition.All, true, false⟩)
        ⟨['a'], RemovePosition.All, true, false⟩ =
      remove (fun _ => true) ['a', 'b', 'a'] ⟨['a'], RemovePosition.All, true, false⟩ :=
  C4_idempotent_amended (fun _ => true) ['a', 'b', 'a'] 'a'
    ⟨['a'], RemovePosition.All, true, false⟩ rfl rfl rfl rfl

/-- C6: for every input `x` and every rule whose `target_text` is the empty
string, `remove x rule = x`; the check sits at the top of `remove`, before the
extension split, so the whole input comes back unchanged regardless of
`position`, `case_sensitive` or `ignore_extension`. -/
theorem C6_remove_empty_target (b : List Char → Bool) (x : List Char) (r : RemoveRule)
    (h : r.text = []) : remove b x r = x :=
  remove_of_empty_text b x r h

theorem C6_remove_empty_target_witness :
    remove (fun _ => true) ['a', '.', 't', 'x', 't']
      ⟨[], RemovePosition.All, false, true⟩ = ['a', '.', 't', 'x', 't'] :=
  C6_remove_empty_target (fun _ => true) ['a', '.', 't', 'x', 't']
    ⟨[], RemovePosition.All, false, true⟩ rfl

/-- C7: `removes` is the left fold of the single-rule operation: the empty
rule list returns the input unchanged, and a two-rule list is the sequential
composition, each rule receiving the previous rule's output. -/
theorem C7_removes_foldl (b : List Char → Bool) (x : List Char) :
    removes b x [] = x ∧
      ∀ r1 r2 : RemoveRule, removes b x [r1, r2] = remove b (remove b x r1) r2 :=
  ⟨rfl, fun _ _ => rfl⟩

/-- C9: for every rule with non-empty `target_text`, if after extension
splitting the stem is empty, `remove` returns the preserved suffix unchanged
as the entire result, without running the occurrence matcher. -/
theorem C9_remove_empty_stem (b : List Char → Bool) (s : List Char) (r : RemoveRule)
    (ht : r.text ≠ []) (hs : stemOf s r = []) : remove b s r = suffixOf s r :=
  remove_of_empty_stem b s r ht hs

theorem C9_remove_empty_stem_witness :
    remove (fun _ => true) [] ⟨['a'], RemovePosition.First, true, true⟩ =
      suffixOf [] ⟨['a'], RemovePosition.First, true, true⟩ :=
  C9_remove_empty_stem (fun _ => true) [] ⟨['a'], RemovePosition.First, true, true⟩
    (by decide) (by decide)

theorem remove_nomatch (b : List Char → Bool) (s : List Char) (r : RemoveRule)
    (h : ∀ i, matchAt (charEqOf r.case_sensitive) r.text ((stemOf s r).drop i) = false) :
    remove b s r = s := by
  by_cases ht : r.text = []
  · exact remove_of_empty_text b s r ht
  · by_cases hs : stemOf s r = []
    · rw [remove_of_empty_stem b s r ht hs]
      have h0 : s = [] := stemOf_nil s r hs
      rw [h0, suffixOf_nil]
    · rw [remove_decomp b s r ht hs, applyMatcher_nomatch b r _ h]
      exact stem_suffix_recomb s r

theorem noMatch_bounded (eqc : Char → Char → Bool) (pat s : List Char) (hp : pat ≠ [])
    (hb : ∀ i < s.length, matchAt eqc pat (s.drop i) = false) :
    ∀ i, matchAt eqc pat (s.drop i) = false := by
  intro i
  by_cases hlt : i < s.length
  · exact hb i hlt
  · have hdrop : s.drop i = [] := List.drop_eq_nil_of_le (Nat.le_of_not_lt hlt)
    rw [hdrop, matchAt_nil_right eqc pat hp]

theorem splitName_snd_shape (s : List Char) (h : (splitName s).2 ≠ []) :
    ∃ e, (splitName s).2 = '.' :: e := by
  unfold splitName at h ⊢
  by_cases hdd : s = ['.', '.']
  · rw [if_pos hdd] at h
    exact absurd rfl h
  · rw [if_neg hdd] at h ⊢
    cases hm : lastIdxOf '.' s with
    | none => rw [hm] at h; exact absurd rfl h
    | some n =>
      cases n with
      | zero => rw [hm] at h; exact absurd rfl h
      | succ i => exact ⟨s.drop (i + 2), rfl⟩

/-- C1: for every input string and rule, the output of `remove` is at most as
long as the input; and in the degenerate identity cases — `target_text` empty,
or no occurrence of `target_text` found in the processed stem under the rule's
matching mode — the output equals the input exactly. -/
theorem C1_remove_shrinks_or_identity (b : List Char → Bool) (s : List Char) (r : RemoveRule) :
    (remove b s r).length ≤ s.length ∧
      (r.text = [] → remove b s r = s) ∧
      ((∀ i, matchAt (charEqOf r.case_sensitive) r.text ((stemOf s r).drop i) = false) →
        remove b s r = s) := by
  refine ⟨?_, fun ht => remove_of_empty_text b s r ht, ?_⟩
  · by_cases ht : r.text = []
    · rw [remove_of_empty_text b s r ht]
    · by_cases hs : stemOf s r = []
      · rw [remove_of_empty_stem b s r ht hs]
        have h0 : s = [] := stemOf_nil s r hs
        rw [h0, suffixOf_nil]
      · rw [remove_decomp b s r ht hs]
        have hlen := applyMatcher_len b r (stemOf s r)
        calc (applyMatcher b r (stemOf s r) ++ suffixOf s r).length
            = (applyMatcher b r (stemOf s r)).length + (suffixOf s r).length :=
              List.length_append _ _
          _ ≤ (stemOf s r).length + (suffixOf s r).length := by omega
          _ = (stemOf s r ++ suffixOf s r).length := (List.length_append _ _).symm
          _ = s.length := by rw [stem_suffix_recomb]
  · exact fun h => remove_nomatch b s r h

theorem C1_remove_shrinks_or_identity_witness :
    (remove (fun _ => true) ['a', 'b'] ⟨['z'], RemovePosition.All, true, false⟩).length ≤ 2 ∧
      remove (fun _ => true) ['a', 'b'] ⟨['z'], RemovePosition.All, true, false⟩ = ['a', 'b'] ∧
      remove (fun _ => true) ['a', 'b'] ⟨[], RemovePosition.First, false, true⟩ = ['a', 'b'] :=
  ⟨(C1_remove_shrinks_or_identity (fun _ => true) ['a', 'b']
      ⟨['z'], RemovePosition.All, true, false⟩).1,
    (C1_remove_shrinks_or_identity (fun _ => true) ['a', 'b']
      ⟨['z'], RemovePosition.All, true, false⟩).2.2
      (noMatch_bounded (charEqOf true) ['z'] ['a', 'b'] (by decide) (by decide)),
    (C1_remove_shrinks_or_identity (fun _ => true) ['a', 'b']
      ⟨[], RemovePosition.First, false, true⟩).2.1 rfl⟩

/-- C5: for every rule with `ignore_extension = true` applied to a name whose
split yields a real preserved suffix, that suffix begins with the final
preserved dot, the input is exactly stem-plus-suffix, and the output of
`remove` ends with exactly the same suffix: the characters after (and
including) the final preserved dot are byte-identical between input and
output. -/
theorem C5_extension_frame (b : List Char → Bool) (s : List Char) (r : RemoveRule)
    (hig : r.ignore_extension = true) (hsuf : (splitName s).2 ≠ []) :
    (∃ e, (splitName s).2 = '.' :: e) ∧
      s = (splitName s).1 ++ (splitName s).2 ∧
      ∃ p, remove b s r = p ++ (splitName s).2 := by
  refine ⟨splitName_snd_shape s hsuf, (splitName_recomb s).symm, ?_⟩
  have hsuffix : suffixOf s r = (splitName s).2 := by simp [suffixOf, hig]
  by_cases ht : r.text = []
  · exact ⟨(splitName s).1, by rw [remove_of_empty_text b s r ht]; exact (splitName_recomb s).symm⟩
  · have hstem : stemOf s r ≠ [] := by
      simp only [stemOf, hig, if_true]
      intro h0
      have hnil : s = [] := splitName_fst_nil s h0
      rw [hnil] at hsuf
      exact hsuf rfl
    exact ⟨applyMatcher b r (stemOf s r), by rw [remove_decomp b s r ht hstem, hsuffix]⟩

theorem C5_extension_frame_witness :
    (∃ e, (splitName ['a', 'b', '.', 't', 'x', 't']).2 = '.' :: e) ∧
      ['a', 'b', '.', 't', 'x', 't'] =
        (splitName ['a', 'b', '.', 't', 'x', 't']).1 ++ (splitName ['a', 'b', '.', 't', 'x', 't']).2 ∧
      ∃ p, remove (fun _ => true) ['a', 'b', '.', 't', 'x', 't']
          ⟨['b'], RemovePosition.All, true, true⟩ =
        p ++ (splitName ['a', 'b', '.', 't', 'x', 't']).2 :=
  C5_extension_frame (fun _ => true) ['a', 'b', '.', 't', 'x', 't']
    ⟨['b'], RemovePosition.All, true, true⟩ rfl (by decide)

/-- C2 counterexample: the claim says a separable extension exists only when
the last dot separates a non-empty base from a **non-empty** extension, so on
`"a."` the splitter would have to yield stem `"a."` and suffix `""`.  The code
(`Path::file_stem` / `Path::extension`) splits `"a."` into stem `"a"` and
suffix `"."` — the extension component is empty — and `remove` consequently
protects that bare trailing dot: removing `"."` from `"a."` with
`ignore_extension = true` leaves `"a."` unchanged instead of producing `"a"`. -/
theorem C2_splitter_counterexample :
    splitName ['a', '.'] = (['a'], ['.']) ∧
      splitName ['a', '.'] ≠ (['a', '.'], []) ∧
      remove (fun _ => true) ['a', '.'] ⟨['.'], RemovePosition.All, true, true⟩ = ['a', '.'] := by
  refine ⟨by decide, by decide, by decide⟩

/-- C2 (amended): with `ignore_extension = true` the extension splitter
behaves as follows: a name with no dot, or whose only dot is a leading dot (a
dotfile), yields `stem = name` and `preserved_suffix = ""`; a name with an
internal dot — other than the special component `".."` — splits at the last
dot only, even when the trailing segment is empty (so `"archive.tar.gz"`
gives stem `"archive.tar"`, suffix `".gz"`, and `"a."` gives stem `"a"`,
suffix `"."`): a separable extension exists whenever the last dot separates a
non-empty base from a (possibly empty) extension; the empty string yields
stem `""` and suffix `""`. -/
theorem C2_splitter_amended :
    (∀ s : List Char, '.' ∉ s → splitName s = (s, [])) ∧
    (∀ t : List Char, '.' ∉ t → splitName ('.' :: t) = ('.' :: t, [])) ∧
    (∀ a b' : List Char, a ≠ [] → '.' ∉ b' → a ++ '.' :: b' ≠ ['.', '.'] →
      splitName (a ++ '.' :: b') = (a, '.' :: b')) ∧
    splitName [] = ([], []) ∧
    splitName ['.', '.'] = (['.', '.'], []) :=
  ⟨splitName_no_dot, splitName_dotfile, splitName_last_dot, rfl, rfl⟩

theorem C2_splitter_amended_witness :
    splitName ['n', 'o', 'd', 'o', 't'] = (['n', 'o', 'd', 'o', 't'], []) ∧
    splitName ['.', 'g', 'i', 't'] = (['.', 'g', 'i', 't'], []) ∧
    splitName (['a', 'r', 'c', 'h', 'i', 'v', 'e', '.', 't', 'a', 'r'] ++ '.' :: ['g', 'z']) =
      (['a', 'r', 'c', 'h', 'i', 'v', 'e', '.', 't', 'a', 'r'], '.' :: ['g', 'z']) :=
  ⟨C2_splitter_amended.1 ['n', 'o', 'd', 'o', 't'] (by decide),
    C2_splitter_amended.2.1 ['g', 'i', 't'] (by decide),
    C2_splitter_amended.2.2.1 ['a', 'r', 'c', 'h', 'i', 'v', 'e', '.', 't', 'a', 'r'] ['g', 'z']
      (by decide) (by decide) (by decide)⟩

/-- C8: `remove` is total — it is a Lean function, defined on every input
string and rule — and when the case-insensitive pattern matcher cannot be
constructed for `target_text` (the `buildOk` oracle answers `false`), the stem
is left unmodified and the whole input comes back unchanged: the failure
degrades to a no-op, never to a fault or a partially corrupted string. -/
theorem C8_remove_build_failure_noop (b : List Char → Bool) (s : List Char) (r : RemoveRule)
    (hc : r.case_sensitive = false) (hb : b r.text = false) : remove b s r = s := by
  by_cases ht : r.text = []
  · exact remove_of_empty_text b s r ht
  · by_cases hs : stemOf s r = []
    · rw [remove_of_empty_stem b s r ht hs]
      have hnil : s = [] := stemOf_nil s r hs
      rw [hnil, suffixOf_nil]
    · rw [remove_decomp b s r ht hs, applyMatcher_build_failure b r _ hc hb]
      exact stem_suffix_recomb s r

theorem C8_remove_build_failure_noop_witness :
    remove (fun _ => false) ['a', 'B', 'c'] ⟨['b'], RemovePosition.All, false, false⟩ =
      ['a', 'B', 'c'] :=
  C8_remove_build_failure_noop (fun _ => false) ['a', 'B', 'c']
    ⟨['b'], RemovePosition.All, false, false⟩ rfl rfl

theorem charEqInsens_iff (p c : Char) : charEqInsens p c = true ↔ caseFold p = caseFold c := by
  simp [charEqInsens]

theorem matchAt_insens_chr : ∀ pat s : List Char,
    matchAt charEqInsens pat s = true ↔
      pat.length ≤ s.length ∧ (s.take pat.length).map caseFold = pat.map caseFold := by
  intro pat
  induction pat with
  | nil => intro s; simp [matchAt]
  | cons p ps ih =>
    intro s
    cases s with
    | nil => simp [matchAt]
    | cons c cs =>
      simp only [matchAt, Bool.and_eq_true, List.length_cons, List.take_succ_cons,
        List.map_cons, List.cons.injEq]
      rw [charEqInsens_iff, ih cs]
      constructor
      · rintro ⟨h1, h2, h3⟩
        exact ⟨by omega, h1.symm, h3⟩
      · rintro ⟨h1, h2, h3⟩
        exact ⟨h2.symm, by omega, h3⟩

/-- C3: under `position = Last`, `remove` deletes only the right-most
occurrence of `target_text` from the stem and returns the input unmodified
when no occurrence exists.  Case-sensitively the deleted occurrence is the one
with the greatest start offset among all (possibly overlapping) occurrences;
case-insensitively (when the matcher builds) it is the one with the greatest
start offset among the non-overlapping matches found scanning left to right;
either way the deleted span's length is `target_text`'s and the preserved
suffix is re-appended. -/
theorem C3_remove_last_occurrence (b : List Char → Bool) (r : RemoveRule) (s : List Char)
    (hpos : r.remove_position = RemovePosition.Last) (ht : r.text ≠ []) :
    (r.case_sensitive = true →
      ((∀ i, matchAt charEqSens r.text ((stemOf s r).drop i) = false) → remove b s r = s) ∧
      (∀ i, matchAt charEqSens r.text ((stemOf s r).drop i) = true →
        ∃ j, matchAt charEqSens r.text ((stemOf s r).drop j) = true ∧
          (∀ k, matchAt charEqSens r.text ((stemOf s r).drop k) = true → k ≤ j) ∧
          remove b s r =
            ((stemOf s r).take j ++ (stemOf s r).drop (j + r.text.length)) ++ suffixOf s r)) ∧
    (r.case_sensitive = false → b r.text = true →
      ((∀ i, matchAt charEqInsens r.text ((stemOf s r).drop i) = false) → remove b s r = s) ∧
      (∀ i, matchAt charEqInsens r.text ((stemOf s r).drop i) = true →
        ∃ j, j ∈ findAllIdx charEqInsens r.text (stemOf s r) ∧
          (∀ k, k ∈ findAllIdx charEqInsens r.text (stemOf s r) → k ≤ j) ∧
          matchAt charEqInsens r.text ((stemOf s r).drop j) = true ∧
          remove b s r =
            ((stemOf s r).take j ++ (stemOf s r).drop (j + r.text.length)) ++ suffixOf s r)) := by
  constructor
  · intro hc
    constructor
    · intro h
      refine remove_nomatch b s r ?_
      intro i
      rw [hc]
      simpa [charEqOf] using h i
    · intro i hm
      have hs : stemOf s r ≠ [] := by
        intro h0
        rw [h0, List.drop_nil, matchAt_nil_right charEqSens r.text ht] at hm
        cases hm
      cases hr : rfindIdx charEqSens r.text (stemOf s r) with
      | none =>
        have := rfindIdx_none charEqSens r.text (stemOf s r) hr i
        rw [hm] at this
        cases this
      | some j =>
        refine ⟨j, rfindIdx_some_match charEqSens r.text (stemOf s r) j hr,
          fun k hk => rfindIdx_some_max charEqSens r.text ht (stemOf s r) j hr k hk, ?_⟩
        rw [remove_decomp b s r ht hs]
        congr 1
        simp [applyMatcher, hpos, hc, hr]
  · intro hc hb
    constructor
    · intro h
      refine remove_nomatch b s r ?_
      intro i
      rw [hc]
      simpa [charEqOf] using h i
    · intro i hm
      have hs : stemOf s r ≠ [] := by
        intro h0
        rw [h0, List.drop_nil, matchAt_nil_right charEqInsens r.text ht] at hm
        cases hm
      have hne : findAllGo charEqInsens r.text (stemOf s r) 0 0 ≠ [] :=
        findAllGo_nonempty_aux charEqInsens r.text ht (stemOf s r).length (stemOf s r)
          (Nat.le_refl _) i 0 hm
      obtain ⟨m, hlast⟩ := lastElem?_isSome _ hne
      obtain ⟨k, hk0, hmk⟩ := findAllGo_sound_aux charEqInsens r.text (stemOf s r).length
        (stemOf s r) (Nat.le_refl _) 0 m (lastElem?_mem _ m hlast)
      have hkm : m = k := by omega
      refine ⟨m, lastElem?_mem _ m hlast,
        fun k' hk' => findAllGo_max_aux charEqInsens r.text (stemOf s r).length (stemOf s r)
          (Nat.le_refl _) 0 m hlast k' hk', ?_, ?_⟩
      · rw [hkm]
        exact hmk
      · rw [remove_decomp b s r ht hs]
        congr 1
        simp [applyMatcher, hpos, hc, hb, findAllIdx, hlast]

theorem C3_remove_last_occurrence_witness :
    ∃ j, matchAt charEqSens ['a']
        ((stemOf ['a', 'b', 'a'] ⟨['a'], RemovePosition.Last, true, false⟩).drop j) = true ∧
      (∀ k, matchAt charEqSens ['a']
          ((stemOf ['a', 'b', 'a'] ⟨['a'], RemovePosition.Last, true, false⟩).drop k) = true →
        k ≤ j) ∧
      remove (fun _ => true) ['a', 'b', 'a'] ⟨['a'], RemovePosition.Last, true, false⟩ =
        ((stemOf ['a', 'b', 'a'] ⟨['a'], RemovePosition.Last, true, false⟩).take j ++
            (stemOf ['a', 'b', 'a'] ⟨['a'], RemovePosition.Last, true, false⟩).drop
              (j + (['a'] : List Char).length)) ++
          suffixOf ['a', 'b', 'a'] ⟨['a'], RemovePosition.Last, true, false⟩ :=
  ((C3_remove_last_occurrence (fun _ => true) ⟨['a'], RemovePosition.Last, true, false⟩
      ['a', 'b', 'a'] rfl (by decide)).1 rfl).2 0 (by decide)

/-- C10: with `case_sensitive = false` (and the matcher building), `target_text`
is matched as a literal string: a candidate span matches exactly when its
case-folded characters equal the case-folded target character for character,
so regex metacharacters such as `.` and `+` in the target only match
themselves up to letter case; every index the scanner reports is such a
literal occurrence, in `All` mode `remove` deletes exactly those
non-overlapping occurrences from the stem, and concretely `.` does not act as
a wildcard nor `+` as a repetition operator. -/
theorem C10_insensitive_literal (b : List Char → Bool) (r : RemoveRule) (s : List Char)
    (ht : r.text ≠ []) (hc : r.case_sensitive = false) (hb : b r.text = true)
    (hs : stemOf s r ≠ []) :
    (∀ t, matchAt charEqInsens r.text t = true ↔
        r.text.length ≤ t.length ∧ (t.take r.text.length).map caseFold = r.text.map caseFold) ∧
    (∀ j, j ∈ findAllIdx charEqInsens r.text (stemOf s r) →
        matchAt charEqInsens r.text ((stemOf s r).drop j) = true) ∧
    (r.remove_position = RemovePosition.All →
        remove b s r = removeAll charEqInsens r.text (stemOf s r) ++ suffixOf s r) ∧
    remove (fun _ => true) ['a', 'x', 'b'] ⟨['.'], RemovePosition.All, false, false⟩ =
      ['a', 'x', 'b'] ∧
    remove (fun _ => true) ['a', '.', 'B', '.', 'c'] ⟨['.'], RemovePosition.All, false, false⟩ =
      ['a', 'B', 'c'] ∧
    remove (fun _ => true) ['a', 'a', 'a'] ⟨['a', '+'], RemovePosition.All, false, false⟩ =
      ['a', 'a', 'a'] := by
  refine ⟨fun t => matchAt_insens_chr r.text t, ?_, ?_, by decide, by decide, by decide⟩
  · intro j hj
    obtain ⟨k, hk, hmk⟩ := findAllGo_sound_aux charEqInsens r.text (stemOf s r).length
      (stemOf s r) (Nat.le_refl _) 0 j hj
    have hjk : j = k := by omega
    rw [hjk]
    exact hmk
  · intro hpos
    rw [remove_decomp b s r ht hs]
    congr 1
    simp [applyMatcher, hpos, hc, hb]

theorem C10_insensitive_literal_witness :
    remove (fun _ => true) ['a', '.', 'b'] ⟨['.'], RemovePosition.All, false, false⟩ =
      removeAll charEqInsens ['.']
          (stemOf ['a', '.', 'b'] ⟨['.'], RemovePosition.All, false, false⟩) ++
        suffixOf ['a', '.', 'b'] ⟨['.'], RemovePosition.All, false, false⟩ :=
  (C10_insensitive_literal (fun _ => true) ⟨['.'], RemovePosition.All, false, false⟩
    ['a', '.', 'b'] (by decide) rfl rfl (by decide)).2.2.1 rfl

end Renamer
